import Mathlib

/-!
Shallow embedding of the mbed `<mstd_memory>` backport: the exclusive-ownership
smart pointer `std::unique_ptr` (single-object and array specializations, whose
`release`/`reset`/destructor/move bodies are textually identical), the
`make_unique` creation factories, the owner comparison operators, and the
C++17 uninitialized-range algorithms (`mstd::uninitialized_move`,
`mstd::uninitialized_move_n`, `mstd::destroy_at`, `mstd::destroy`,
`mstd::destroy_n`).

Modelling conventions:
- A pointer value is a `Nat`; `0` is the null marker (`nullptr`).
- The deletion capability (deleter) is modelled by a `Nat` value identifying
  the capability; `get_deleter()` assignment copies that value.
- Every mutating operation additionally returns the list of addresses the
  deletion capability was invoked on during the operation, in invocation
  order, so that "no deletion occurs" is a provable fact about the body of
  the operation rather than a typing accident.
-/

namespace Mstd

/-- An exclusive owner: the `ptr_` field of `std::unique_ptr` together with
the deleter held by its `impl::deleter_store` base.  `ptr_ = 0` is the null
marker.  This one structure embeds both the single-object specialization
(source lines 162-257) and the array specialization (lines 260-377): the
bodies of `release`, `reset`, the destructor, move construction and move
assignment are textually identical in the two specializations. -/
structure UniquePtr where
  ptr_ : Nat
  del : Nat
deriving DecidableEq, Repr

namespace UniquePtr

/-- `pointer release() noexcept { return std::exchange(ptr_, nullptr); }`
(lines 206-209 and 325-328).  Returns the previously held address, the
owner afterwards, and the (empty) list of deleter invocations: the body
contains no call to the deletion capability. -/
def release (o : UniquePtr) : Nat × UniquePtr × List Nat :=
  (o.ptr_, { o with ptr_ := 0 }, [])

/-- `void reset(pointer ptr) noexcept { pointer old = std::exchange(ptr_, ptr);
if (old) { this->get_deleter()(old); } }` (lines 211-217 and 330-336).
Returns the owner afterwards and the deleter-invocation list: the deleter is
invoked on the old address exactly when it was non-null. -/
def reset (o : UniquePtr) (ptr : Nat) : UniquePtr × List Nat :=
  let old := o.ptr_
  ({ o with ptr_ := ptr }, if old = 0 then [] else [old])

/-- Destructor `~unique_ptr() { if (ptr_) { this->get_deleter()(ptr_); } }`
(lines 198-203 and 317-322): the list of deleter invocations it performs. -/
def dtorDels (o : UniquePtr) : List Nat :=
  if o.ptr_ = 0 then [] else [o.ptr_]

/-- Move constructor `unique_ptr(unique_ptr &&u) noexcept :
deleter_store<D>(forward<D>(u.get_deleter())), ptr_(u.ptr_) { u.ptr_ = nullptr; }`
(lines 191 and 309).  Returns the newly constructed owner, the source
afterwards, and the (empty) deleter-invocation list. -/
def moveCtor (u : UniquePtr) : UniquePtr × UniquePtr × List Nat :=
  ({ ptr_ := u.ptr_, del := u.del }, { u with ptr_ := 0 }, [])

/-- Move assignment `unique_ptr &operator=(unique_ptr &&r) noexcept {
reset(r.release()); this->get_deleter() = std::forward<D>(r.get_deleter());
return *this; }` (lines 228-233 and 350-355), for distinct objects
`*this = dst` and `r = src`.  Returns the destination afterwards, the source
afterwards, and the deleter-invocation list (those performed by `reset`). -/
def moveAssign (dst src : UniquePtr) : UniquePtr × UniquePtr × List Nat :=
  let r := src.release
  let rr := dst.reset r.1
  ({ rr.1 with del := src.del }, r.2.1, rr.2)

/-- The same move assignment executed with `r` aliasing `*this`
(`o = std::move(o)`): `r.release()` first exchanges the shared `ptr_` with
null, then `reset` installs the released address into the already-cleared
state, then the deleter is self-assigned.  The single state is threaded
through both member calls. -/
def selfMoveAssign (o : UniquePtr) : UniquePtr × List Nat :=
  let r := o.release
  let rr := r.2.1.reset r.1
  ({ rr.1 with del := o.del }, rr.2)

end UniquePtr

/-- The array specialization `unique_ptr<T[], D>` written out separately
(lines 260-377), so that claims quantifying over "single-object or array"
owners can be stated against both embeddings.  Its bodies are textually
identical to the single-object ones. -/
structure ArrayUniquePtr where
  ptr_ : Nat
  del : Nat
deriving DecidableEq, Repr

namespace ArrayUniquePtr

/-- Array-owner `release` (lines 325-328), identical body to lines 206-209. -/
def release (o : ArrayUniquePtr) : Nat × ArrayUniquePtr × List Nat :=
  (o.ptr_, { o with ptr_ := 0 }, [])

/-- Array-owner `reset` (lines 330-336), identical body to lines 211-217. -/
def reset (o : ArrayUniquePtr) (ptr : Nat) : ArrayUniquePtr × List Nat :=
  let old := o.ptr_
  ({ o with ptr_ := ptr }, if old = 0 then [] else [old])

/-- Array-owner destructor deleter invocations (lines 317-322). -/
def dtorDels (o : ArrayUniquePtr) : List Nat :=
  if o.ptr_ = 0 then [] else [o.ptr_]

end ArrayUniquePtr

/-- C1: for every owner (single-object or array), `release` returns the
address held immediately before the call, leaves the owner holding the null
marker, performs no deleter invocation itself, and destroying the owner
afterwards performs no deleter invocation either. -/
theorem release_empties_and_suppresses_deletion
    (o : UniquePtr) (a : ArrayUniquePtr) :
    (o.release.1 = o.ptr_ ∧ o.release.2.1.ptr_ = 0 ∧ o.release.2.2 = [] ∧
      o.release.2.1.dtorDels = []) ∧
    (a.release.1 = a.ptr_ ∧ a.release.2.1.ptr_ = 0 ∧ a.release.2.2 = [] ∧
      a.release.2.1.dtorDels = []) := by
  refine ⟨⟨rfl, rfl, rfl, ?_⟩, ⟨rfl, rfl, rfl, ?_⟩⟩ <;>
    simp [UniquePtr.release, UniquePtr.dtorDels,
      ArrayUniquePtr.release, ArrayUniquePtr.dtorDels]

/-- C2 (counterexample): `reset(a)` with `a` equal to the currently held
non-null address does invoke the deletion capability on `a`: with the owner
holding address 5, `reset 5` invokes the deleter on 5, contradicting the
claim that the deleter is never invoked on the argument. -/
theorem reset_deletes_argument_when_it_equals_held :
    5 ∈ ((UniquePtr.mk 5 0).reset 5).2 ∧
    ((UniquePtr.mk 5 0).reset 5).2 = [5] := by
  constructor <;> simp [UniquePtr.reset]

/-- C2 (amended): `o.reset a` installs `a` as the owned address, invokes the
deletion capability exactly once on the previously held address when that
address was non-null and zero times when it was null, and never invokes it
on `a` during the call provided `a` differs from the previously held
address. -/
theorem reset_spec (o : UniquePtr) (a : Nat) (h : a ≠ o.ptr_) :
    (o.reset a).1.ptr_ = a ∧ (o.reset a).1.del = o.del ∧
    (o.reset a).2 = (if o.ptr_ = 0 then [] else [o.ptr_]) ∧
    a ∉ (o.reset a).2 := by
  refine ⟨rfl, rfl, rfl, ?_⟩
  simp only [UniquePtr.reset]
  by_cases h0 : o.ptr_ = 0 <;> simp [h0, h]

/-- C2 (witness). -/
theorem reset_spec_witness :
    (3 : Nat) ≠ (UniquePtr.mk 7 1).ptr_ ∧
      (((UniquePtr.mk 7 1).reset 3).1.ptr_ = 3 ∧
       ((UniquePtr.mk 7 1).reset 3).1.del = 1 ∧
       ((UniquePtr.mk 7 1).reset 3).2 =
         (if (UniquePtr.mk 7 1).ptr_ = 0 then [] else [(UniquePtr.mk 7 1).ptr_]) ∧
       (3 : Nat) ∉ ((UniquePtr.mk 7 1).reset 3).2) :=
  ⟨by decide, reset_spec (UniquePtr.mk 7 1) 3 (by decide)⟩

/-- C3: when owner `src` is moved into owner `dst` (move construction or move
assignment), afterwards the source is empty, the destination holds exactly
the address the source held before the move, the destination's deletion
capability equals the source's prior capability, and no deleter invocation
occurs on the transferred address during the transfer.  The hypothesis is
the data-model invariant that two distinct live owners never hold the same
non-null address. -/
theorem move_transfers_ownership (dst src : UniquePtr)
    (h : src.ptr_ = 0 ∨ dst.ptr_ ≠ src.ptr_) :
    (src.moveCtor.1.ptr_ = src.ptr_ ∧ src.moveCtor.1.del = src.del ∧
      src.moveCtor.2.1.ptr_ = 0 ∧ src.moveCtor.2.2 = []) ∧
    ((dst.moveAssign src).1.ptr_ = src.ptr_ ∧
      (dst.moveAssign src).1.del = src.del ∧
      (dst.moveAssign src).2.1.ptr_ = 0 ∧
      src.ptr_ ∉ (dst.moveAssign src).2.2) := by
  refine ⟨⟨rfl, rfl, rfl, rfl⟩, rfl, rfl, rfl, ?_⟩
  simp only [UniquePtr.moveAssign, UniquePtr.release, UniquePtr.reset]
  rcases h with h | h
  · by_cases h0 : dst.ptr_ = 0 <;> simp [h0, h]
    omega
  · by_cases h0 : dst.ptr_ = 0 <;> simp [h0]
    omega

/-- C3 (witness). -/
theorem move_transfers_ownership_witness :
    ((UniquePtr.mk 9 2).ptr_ = 0 ∨ (UniquePtr.mk 4 1).ptr_ ≠ (UniquePtr.mk 9 2).ptr_) ∧
    (((UniquePtr.mk 9 2).moveCtor.1.ptr_ = (UniquePtr.mk 9 2).ptr_ ∧
      (UniquePtr.mk 9 2).moveCtor.1.del = (UniquePtr.mk 9 2).del ∧
      (UniquePtr.mk 9 2).moveCtor.2.1.ptr_ = 0 ∧ (UniquePtr.mk 9 2).moveCtor.2.2 = []) ∧
     (((UniquePtr.mk 4 1).moveAssign (UniquePtr.mk 9 2)).1.ptr_ = (UniquePtr.mk 9 2).ptr_ ∧
      ((UniquePtr.mk 4 1).moveAssign (UniquePtr.mk 9 2)).1.del = (UniquePtr.mk 9 2).del ∧
      ((UniquePtr.mk 4 1).moveAssign (UniquePtr.mk 9 2)).2.1.ptr_ = 0 ∧
      (UniquePtr.mk 9 2).ptr_ ∉ ((UniquePtr.mk 4 1).moveAssign (UniquePtr.mk 9 2)).2.2)) :=
  ⟨Or.inr (by decide),
   move_transfers_ownership (UniquePtr.mk 4 1) (UniquePtr.mk 9 2) (Or.inr (by decide))⟩

/-- C10: self-move-assignment `o = std::move(o)` is harmless: the owner ends
holding the same address it held before, zero deleter invocations occur, and
the stored deletion capability is unchanged, because the aliased move path
first empties the source via `release` before `reset` installs the address. -/
theorem self_move_assign_harmless (o : UniquePtr) :
    o.selfMoveAssign.1.ptr_ = o.ptr_ ∧
    o.selfMoveAssign.2 = [] ∧
    o.selfMoveAssign.1.del = o.del := by
  refine ⟨rfl, ?_, rfl⟩
  simp [UniquePtr.selfMoveAssign, UniquePtr.release, UniquePtr.reset]

/-- `operator==(x, y) { return x.get() == y.get(); }` (lines 405-409). -/
def ptrEqB (x y : UniquePtr) : Bool := x.ptr_ == y.ptr_

/-- `operator!=(x, y) { return x.get() != y.get(); }` (lines 411-415). -/
def ptrNeB (x y : UniquePtr) : Bool := x.ptr_ != y.ptr_

/-- `operator<(x, y) { return less<CT>()(x.get(), y.get()); }` (lines
417-422): the common comparable representation `CT` of the two address
types is modelled by `Nat`, and `std::less` by `<` on `Nat`. -/
def ptrLtB (x y : UniquePtr) : Bool := decide (x.ptr_ < y.ptr_)

/-- `operator<=(x, y) { return !(y < x); }` (lines 424-428). -/
def ptrLeB (x y : UniquePtr) : Bool := !(ptrLtB y x)

/-- `operator>(x, y) { return y < x; }` (lines 430-434). -/
def ptrGtB (x y : UniquePtr) : Bool := ptrLtB y x

/-- `operator>=(x, y) { return !(x < y); }` (lines 436-440). -/
def ptrGeB (x y : UniquePtr) : Bool := !(ptrLtB x y)

/-- C9: two owners compare equal iff their held addresses are equal
(including both null); `<` holds iff the addresses compare less in the
common comparable representation; `<=`, `>`, `>=` are the stated
derivations from `<`; and `<` is a strict total order consistent with the
addresses' own order: irreflexive, transitive, and trichotomous against
address equality. -/
theorem owner_comparisons_follow_addresses (x y z : UniquePtr) :
    (ptrEqB x y = true ↔ x.ptr_ = y.ptr_) ∧
    (ptrNeB x y = true ↔ ¬ x.ptr_ = y.ptr_) ∧
    (ptrLtB x y = true ↔ x.ptr_ < y.ptr_) ∧
    (ptrLeB x y = true ↔ ¬ ptrLtB y x = true) ∧
    (ptrGtB x y = true ↔ ptrLtB y x = true) ∧
    (ptrGeB x y = true ↔ ¬ ptrLtB x y = true) ∧
    ptrLtB x x = false ∧
    (ptrLtB x y = true → ptrLtB y z = true → ptrLtB x z = true) ∧
    (ptrLtB x y = true ∨ ptrEqB x y = true ∨ ptrLtB y x = true) := by
  refine ⟨?_, ?_, ?_, ?_, ?_, ?_, ?_, ?_, ?_⟩ <;>
    simp [ptrEqB, ptrNeB, ptrLtB, ptrLeB, ptrGeB, ptrGtB]
  · omega
  · rcases Nat.lt_trichotomy x.ptr_ y.ptr_ with h | h | h <;> simp [h]

/-- The state of one storage slot of an uninitialized range.  `uninit` is
raw (default-initialized for scalar element types: no value written),
`live a` holds a live value `a`, `moved a` is the moved-from state left
behind after `std::move(*first)` was consumed by a constructor (the slot is
still alive and still needs teardown), `destroyed` is a slot whose teardown
`~T()` has run. -/
inductive Slot (α : Type) where
  | uninit : Slot α
  | live (a : α) : Slot α
  | moved (a : α) : Slot α
  | destroyed : Slot α
deriving DecidableEq, Repr

/-- The value a constructor receives from `std::move(*first)`: the slot's
current value (reading a dead or raw slot is a precondition violation and
yields an arbitrary default). -/
def moveValue {α : Type} [Inhabited α] : Slot α → α
  | Slot.live a => a
  | Slot.moved a => a
  | _ => default

/-- The state `std::move(*first)` leaves the source slot in once a
constructor has consumed it. -/
def afterMoveFrom {α : Type} : Slot α → Slot α
  | Slot.live a => Slot.moved a
  | s => s

/-- Raw memory: slot contents indexed by position.  Iterators into it are
positions (`Nat`). -/
def Mem (α : Type) : Type := Nat → Slot α

/-- One iteration of the loop of `mstd::uninitialized_move` (lines 562-570):
`::new (addressof(*result)) T(move(*first))` constructs the destination
slot from the moved-from source value, marking the source slot moved-from,
then both iterators advance.  `n` counts the remaining iterations of
`for (; first != last; ++result, ++first)`, i.e. `last - first` for a valid
range.  Returns the final memory and the final source and destination
positions. -/
def moveLoop {α : Type} [Inhabited α] (m : Mem α) (first n result : Nat) :
    Mem α × Nat × Nat :=
  match n with
  | 0 => (m, first, result)
  | Nat.succ k =>
      let v := moveValue (m first)
      let m1 : Mem α := fun j => if j = first then afterMoveFrom (m first) else m j
      let m2 : Mem α := fun j => if j = result then Slot.live v else m1 j
      moveLoop m2 (first + 1) k (result + 1)

/-- `mstd::uninitialized_move(first, last, result)` (lines 562-570): runs
the loop over the range and returns the final memory and the function's
return value, which is the single iterator `result` — the end-of-destination
position. -/
def uninitialized_move {α : Type} [Inhabited α] (m : Mem α)
    (first last result : Nat) : Mem α × Nat :=
  let r := moveLoop m first (last - first) result
  (r.1, r.2.2)

/-- `mstd::uninitialized_move_n(first, n, result)` (lines 572-580): runs the
loop `n` times and returns the final memory and the function's return value
`{ first, result }` — both the end-of-source and end-of-destination
positions. -/
def uninitialized_move_n {α : Type} [Inhabited α] (m : Mem α)
    (first n result : Nat) : Mem α × Nat × Nat :=
  let r := moveLoop m first n result
  (r.1, r.2.1, r.2.2)

theorem moveLoop_positions {α : Type} [Inhabited α] (n : Nat) :
    ∀ (m : Mem α) (first result : Nat),
      (moveLoop m first n result).2.1 = first + n ∧
      (moveLoop m first n result).2.2 = result + n := by
  induction n with
  | zero => intro m first result; simp [moveLoop]
  | succ k ih =>
      intro m first result
      rcases ih (fun j => if j = result
          then Slot.live (moveValue (m first))
          else if j = first then afterMoveFrom (m first) else m j)
        (first + 1) (result + 1) with ⟨h1, h2⟩
      constructor
      · rw [moveLoop, h1]; omega
      · rw [moveLoop, h2]; omega

theorem moveLoop_frame {α : Type} [Inhabited α] (n : Nat) :
    ∀ (m : Mem α) (first result k : Nat),
      (k < first ∨ first + n ≤ k) → (k < result ∨ result + n ≤ k) →
      (moveLoop m first n result).1 k = m k := by
  induction n with
  | zero => intro m first result k _ _; simp [moveLoop]
  | succ i ih =>
      intro m first result k hs hd
      rw [moveLoop]
      rw [ih _ (first + 1) (result + 1) k (by omega) (by omega)]
      have hkf : k ≠ first := by omega
      have hkr : k ≠ result := by omega
      simp [hkf, hkr]

theorem moveLoop_dst {α : Type} [Inhabited α] (n : Nat) :
    ∀ (m : Mem α) (first result : Nat),
      (first + n ≤ result ∨ result + n ≤ first) →
      ∀ i, i < n →
        (moveLoop m first n result).1 (result + i) =
          Slot.live (moveValue (m (first + i))) := by
  induction n with
  | zero => intro m first result _ i hi; omega
  | succ q ih =>
      intro m first result hdisj i hi
      rw [moveLoop]
      rcases Nat.eq_zero_or_pos i with hz | hpos
      · subst hz
        rw [moveLoop_frame q _ (first + 1) (result + 1) (result + 0)
            (by omega) (by omega)]
        simp
      · obtain ⟨j, rfl⟩ : ∃ j, i = j + 1 := ⟨i - 1, by omega⟩
        have := ih (fun j => if j = result
            then Slot.live (moveValue (m first))
            else if j = first then afterMoveFrom (m first) else m j)
          (first + 1) (result + 1) (by omega) j (by omega)
        have harr : result + (j + 1) = result + 1 + j := by omega
        have harr2 : first + 1 + j = first + (j + 1) := by omega
        rw [harr, this]
        have hne1 : first + 1 + j ≠ result := by omega
        have hne2 : first + 1 + j ≠ first := by omega
        have hne3 : first + (j + 1) ≠ result := by omega
        simp [hne1, hne2, harr2, hne3]

theorem moveLoop_src {α : Type} [Inhabited α] (n : Nat) :
    ∀ (m : Mem α) (first result : Nat),
      (first + n ≤ result ∨ result + n ≤ first) →
      ∀ i, i < n →
        (moveLoop m first n result).1 (first + i) =
          afterMoveFrom (m (first + i)) := by
  induction n with
  | zero => intro m first result _ i hi; omega
  | succ q ih =>
      intro m first result hdisj i hi
      rw [moveLoop]
      rcases Nat.eq_zero_or_pos i with hz | hpos
      · subst hz
        rw [moveLoop_frame q _ (first + 1) (result + 1) (first + 0)
            (by omega) (by omega)]
        have hne : first ≠ result := by omega
        simp [hne]
      · obtain ⟨j, rfl⟩ : ∃ j, i = j + 1 := ⟨i - 1, by omega⟩
        have := ih (fun j => if j = result
            then Slot.live (moveValue (m first))
            else if j = first then afterMoveFrom (m first) else m j)
          (first + 1) (result + 1) (by omega) j (by omega)
        have harr : first + (j + 1) = first + 1 + j := by omega
        rw [harr, this]
        have hne1 : first + 1 + j ≠ result := by omega
        have hne2 : first + 1 + j ≠ first := by omega
        simp [hne1, hne2, harr]

/-- `afterMoveFrom` never produces a destroyed slot from a non-destroyed
one: being moved from is not teardown. -/
theorem afterMoveFrom_not_destroyed {α : Type} (s : Slot α)
    (h : s ≠ Slot.destroyed) : afterMoveFrom s ≠ Slot.destroyed := by
  cases s <;> simp [afterMoveFrom] at h ⊢

/-- C6 (counterexample): the range overload `uninitialized_move(first, last,
result)` does not return the end-of-source position: on the source range
`[0, 2)` with destination start `10`, its returned position is `12` (the
end-of-destination), which differs from the end-of-source position `2`;
the function returns no second position at all. -/
theorem uninitialized_move_range_returns_one_position :
    (uninitialized_move (fun _ => Slot.live (1 : Nat)) 0 2 10).2 = 12 ∧
    (12 : Nat) ≠ 2 := by
  exact ⟨rfl, by decide⟩

/-- C6 (amended): the move-construct algorithms construct each destination
slot in order from the corresponding moved-from source value; the range
overload `uninitialized_move(src_begin, src_end, dst)` returns only the
end-of-destination position reached, while the counted overload
`uninitialized_move_n(src_begin, n, dst)` returns both the end-of-source
and the end-of-destination positions reached. -/
theorem move_construct_return_positions {α : Type} [Inhabited α]
    (m : Mem α) (first last result n : Nat)
    (_hrange : first ≤ last)
    (hdisj : first + n ≤ result ∨ result + n ≤ first) :
    (uninitialized_move m first last result).2 = result + (last - first) ∧
    (uninitialized_move_n m first n result).2.1 = first + n ∧
    (uninitialized_move_n m first n result).2.2 = result + n ∧
    (∀ i, i < n → (uninitialized_move_n m first n result).1 (result + i) =
        Slot.live (moveValue (m (first + i)))) := by
  refine ⟨?_, ?_, ?_, ?_⟩
  · exact (moveLoop_positions (last - first) m first result).2
  · exact (moveLoop_positions n m first result).1
  · exact (moveLoop_positions n m first result).2
  · intro i hi
    exact moveLoop_dst n m first result hdisj i hi

/-- C6 (witness). -/
theorem move_construct_return_positions_witness :
    ((0 : Nat) ≤ 2 ∧ ((0 : Nat) + 2 ≤ 10 ∨ 10 + 2 ≤ 0)) ∧
    ((uninitialized_move (fun _ => Slot.live (5 : Nat)) 0 2 10).2 = 10 + (2 - 0) ∧
     (uninitialized_move_n (fun _ => Slot.live (5 : Nat)) 0 2 10).2.1 = 0 + 2 ∧
     (uninitialized_move_n (fun _ => Slot.live (5 : Nat)) 0 2 10).2.2 = 10 + 2 ∧
     (∀ i, i < 2 →
        (uninitialized_move_n (fun _ => Slot.live (5 : Nat)) 0 2 10).1 (10 + i) =
          Slot.live (moveValue ((fun _ => Slot.live (5 : Nat)) (0 + i))))) :=
  ⟨⟨by decide, Or.inl (by decide)⟩,
   move_construct_return_positions (fun _ => Slot.live (5 : Nat)) 0 2 10 2
     (by decide) (Or.inl (by decide))⟩

/-- C7: for a non-overlapping source range `[first, first + n)` and
destination start `result`, `uninitialized_move` constructs exactly `n`
elements starting at the destination (every destination slot in the run
becomes live and every slot outside the source and destination runs is
untouched), returns `result + n`, each constructed destination element
holds the corresponding source element's pre-move value, and the algorithm
destroys no source element. -/
theorem move_construct_elementwise {α : Type} [Inhabited α]
    (m : Mem α) (first n result : Nat)
    (hdisj : first + n ≤ result ∨ result + n ≤ first) :
    (uninitialized_move m first (first + n) result).2 = result + n ∧
    (∀ i, i < n → (uninitialized_move m first (first + n) result).1 (result + i) =
        Slot.live (moveValue (m (first + i)))) ∧
    (∀ i, i < n → (uninitialized_move m first (first + n) result).1 (first + i) =
        afterMoveFrom (m (first + i))) ∧
    (∀ i, i < n → m (first + i) ≠ Slot.destroyed →
        (uninitialized_move m first (first + n) result).1 (first + i) ≠ Slot.destroyed) ∧
    (∀ k, (k < first ∨ first + n ≤ k) → (k < result ∨ result + n ≤ k) →
        (uninitialized_move m first (first + n) result).1 k = m k) := by
  have hn : first + n - first = n := by omega
  refine ⟨?_, ?_, ?_, ?_, ?_⟩
  · have := (moveLoop_positions (first + n - first) m first result).2
    rw [hn] at this
    simpa [uninitialized_move, hn] using this
  · intro i hi
    simpa [uninitialized_move, hn] using moveLoop_dst n m first result hdisj i hi
  · intro i hi
    simpa [uninitialized_move, hn] using moveLoop_src n m first result hdisj i hi
  · intro i hi hnd
    have := moveLoop_src n m first result hdisj i hi
    simp only [uninitialized_move, hn]
    rw [this]
    exact afterMoveFrom_not_destroyed _ hnd
  · intro k hks hkd
    simpa [uninitialized_move, hn] using moveLoop_frame n m first result k hks hkd

/-- C7 (witness). -/
theorem move_construct_elementwise_witness :
    ((0 : Nat) + 2 ≤ 10 ∨ 10 + 2 ≤ 0) ∧
    ((uninitialized_move (fun _ => Slot.live (7 : Nat)) 0 (0 + 2) 10).2 = 10 + 2 ∧
     (∀ i, i < 2 →
        (uninitialized_move (fun _ => Slot.live (7 : Nat)) 0 (0 + 2) 10).1 (10 + i) =
          Slot.live (moveValue ((fun _ => Slot.live (7 : Nat)) (0 + i)))) ∧
     (∀ i, i < 2 →
        (uninitialized_move (fun _ => Slot.live (7 : Nat)) 0 (0 + 2) 10).1 (0 + i) =
          afterMoveFrom ((fun _ => Slot.live (7 : Nat)) (0 + i))) ∧
     (∀ i, i < 2 → (fun (_ : Nat) => Slot.live (7 : Nat)) (0 + i) ≠ Slot.destroyed →
        (uninitialized_move (fun _ => Slot.live (7 : Nat)) 0 (0 + 2) 10).1 (0 + i) ≠
          Slot.destroyed) ∧
     (∀ k, (k < 0 ∨ 0 + 2 ≤ k) → (k < 10 ∨ 10 + 2 ≤ k) →
        (uninitialized_move (fun _ => Slot.live (7 : Nat)) 0 (0 + 2) 10).1 k =
          (fun _ => Slot.live (7 : Nat)) k)) :=
  ⟨Or.inl (by decide),
   move_construct_elementwise (fun _ => Slot.live (7 : Nat)) 0 2 10 (Or.inl (by decide))⟩

/-- `mstd::destroy_at(location) { location->~T(); }` (lines 588-592): runs
the element teardown at one slot; returns the memory afterwards and the
one-element teardown-invocation trace. -/
def destroy_at {α : Type} (m : Mem α) (location : Nat) : Mem α × List Nat :=
  (fun j => if j = location then Slot.destroyed else m j, [location])

/-- The loop of `mstd::destroy` / `mstd::destroy_n` (lines 594-609):
`destroy_at(addressof(*first))` on each slot, advancing `first`; `n` counts
the remaining iterations (`last - first` for a valid range).  Returns the
memory afterwards, the final iterator position, and the teardown-invocation
trace in invocation order. -/
def destroyLoop {α : Type} (m : Mem α) (first n : Nat) :
    Mem α × Nat × List Nat :=
  match n with
  | 0 => (m, first, [])
  | Nat.succ k =>
      let d := destroy_at m first
      let r := destroyLoop d.1 (first + 1) k
      (r.1, r.2.1, first :: r.2.2)

/-- `mstd::destroy(first, last)` (lines 594-600): loops `destroy_at` over
the range; the function returns nothing, so the model returns the memory
afterwards and the teardown trace. -/
def destroy {α : Type} (m : Mem α) (first last : Nat) : Mem α × List Nat :=
  let r := destroyLoop m first (last - first)
  (r.1, r.2.2)

/-- `mstd::destroy_n(first, n)` (lines 602-609): loops `destroy_at` over
the counted run and returns the advanced iterator. -/
def destroy_n {α : Type} (m : Mem α) (first n : Nat) :
    Mem α × Nat × List Nat :=
  destroyLoop m first n

theorem destroyLoop_trace {α : Type} (n : Nat) :
    ∀ (m : Mem α) (first : Nat),
      (destroyLoop m first n).2.2 = List.range' first n := by
  induction n with
  | zero => intro m first; simp [destroyLoop]
  | succ k ih =>
      intro m first
      rw [destroyLoop, List.range'_succ]
      simp [ih]

theorem destroyLoop_pos {α : Type} (n : Nat) :
    ∀ (m : Mem α) (first : Nat),
      (destroyLoop m first n).2.1 = first + n := by
  induction n with
  | zero => intro m first; simp [destroyLoop]
  | succ k ih =>
      intro m first
      rw [destroyLoop]
      simp only [ih]
      omega

theorem destroyLoop_frame {α : Type} (n : Nat) :
    ∀ (m : Mem α) (first k : Nat), (k < first ∨ first + n ≤ k) →
      (destroyLoop m first n).1 k = m k := by
  induction n with
  | zero => intro m first k _; simp [destroyLoop]
  | succ q ih =>
      intro m first k hk
      rw [destroyLoop]
      simp only
      rw [ih _ (first + 1) k (by omega)]
      have hne : k ≠ first := by omega
      simp [destroy_at, hne]

theorem destroyLoop_covers {α : Type} (n : Nat) :
    ∀ (m : Mem α) (first i : Nat), i < n →
      (destroyLoop m first n).1 (first + i) = Slot.destroyed := by
  induction n with
  | zero => intro m first i hi; omega
  | succ q ih =>
      intro m first i hi
      rw [destroyLoop]
      rcases Nat.eq_zero_or_pos i with hz | hpos
      · subst hz
        simp only
        rw [destroyLoop_frame q _ (first + 1) (first + 0) (by omega)]
        simp [destroy_at]
      · obtain ⟨j, rfl⟩ : ∃ j, i = j + 1 := ⟨i - 1, by omega⟩
        have harr : first + (j + 1) = first + 1 + j := by omega
        simp only
        rw [harr, ih _ (first + 1) j (by omega)]

/-- C8: over the range `[first, last)` with `first ≤ last`, and over the
counted run `(first, n)`, the destroy algorithms invoke the element
teardown exactly once per covered slot, in forward order (the invocation
trace is exactly the ascending list of covered positions, duplicate-free),
every covered slot ends torn down, slots outside the run are untouched, and
`destroy_n` returns the iterator advanced past the `n` destroyed slots. -/
theorem destroy_teardown_once {α : Type} (m : Mem α)
    (first last n : Nat) (_h : first ≤ last) :
    ((destroy m first last).2 = List.range' first (last - first) ∧
     (destroy m first last).2.Nodup ∧
     (∀ i, i < last - first → (destroy m first last).1 (first + i) = Slot.destroyed)) ∧
    ((destroy_n m first n).2.2 = List.range' first n ∧
     (destroy_n m first n).2.2.Nodup ∧
     (destroy_n m first n).2.1 = first + n ∧
     (∀ i, i < n → (destroy_n m first n).1 (first + i) = Slot.destroyed) ∧
     (∀ k, (k < first ∨ first + n ≤ k) → (destroy_n m first n).1 k = m k)) := by
  refine ⟨⟨?_, ?_, ?_⟩, ?_, ?_, ?_, ?_, ?_⟩
  · exact destroyLoop_trace (last - first) m first
  · rw [destroy, destroyLoop_trace (last - first) m first]
    exact List.nodup_range' first (last - first)
  · intro i hi
    exact destroyLoop_covers (last - first) m first i hi
  · exact destroyLoop_trace n m first
  · rw [destroy_n, destroyLoop_trace n m first]
    exact List.nodup_range' first n
  · exact destroyLoop_pos n m first
  · intro i hi
    exact destroyLoop_covers n m first i hi
  · intro k hk
    exact destroyLoop_frame n m first k hk

/-- C8 (witness). -/
theorem destroy_teardown_once_witness :
    (3 : Nat) ≤ 6 ∧
    (((destroy (fun _ => Slot.live (2 : Nat)) 3 6).2 = List.range' 3 (6 - 3) ∧
      (destroy (fun _ => Slot.live (2 : Nat)) 3 6).2.Nodup ∧
      (∀ i, i < 6 - 3 →
        (destroy (fun _ => Slot.live (2 : Nat)) 3 6).1 (3 + i) = Slot.destroyed)) ∧
     ((destroy_n (fun _ => Slot.live (2 : Nat)) 3 2).2.2 = List.range' 3 2 ∧
      (destroy_n (fun _ => Slot.live (2 : Nat)) 3 2).2.2.Nodup ∧
      (destroy_n (fun _ => Slot.live (2 : Nat)) 3 2).2.1 = 3 + 2 ∧
      (∀ i, i < 2 →
        (destroy_n (fun _ => Slot.live (2 : Nat)) 3 2).1 (3 + i) = Slot.destroyed) ∧
      (∀ k, (k < 3 ∨ 3 + 2 ≤ k) →
        (destroy_n (fun _ => Slot.live (2 : Nat)) 3 2).1 k =
          (fun _ => Slot.live (2 : Nat)) k))) :=
  ⟨by decide, destroy_teardown_once (fun _ => Slot.live (2 : Nat)) 3 6 2 (by decide)⟩

/-- The shape of a candidate type argument `T` of `make_unique`: a
non-array type, an array of unspecified (runtime) extent `T[]`, or an array
of fixed extent `T[n+1]` (C++ forbids zero-extent array types, so fixed
extents are `n + 1`). -/
inductive TypeForm where
  | nonArray : TypeForm
  | arrayUnspec : TypeForm
  | arrayFixed (k : Nat) : TypeForm
deriving DecidableEq, Repr

/-- `std::is_array<T>::value`. -/
def is_array : TypeForm → Bool
  | TypeForm.nonArray => false
  | _ => true

/-- `std::extent<T>::value`: 0 for non-array types and for arrays of
unspecified extent, and the bound for fixed-extent arrays. -/
def extentVal : TypeForm → Nat
  | TypeForm.nonArray => 0
  | TypeForm.arrayUnspec => 0
  | TypeForm.arrayFixed k => k + 1

/-- The `enable_if` guard of the size-taking `make_unique` overload (lines
387-392): `is_array<T>::value && extent<T>::value == 0`.  The fixed-extent
overload (lines 394-396) is deleted: its guard `extent<T>::value != 0` is
the complement for array types. -/
def makeUniqueArrayEnabled (t : TypeForm) : Bool :=
  is_array t && (extentVal t == 0)

/-- The array storage produced by `new remove_extent_t<T>[size]()` in the
array `make_unique` (line 391): the trailing `()` value-initializes every
element, which for a scalar element type writes the zero value into each
slot. -/
def newArrayValueInit (size : Nat) : List (Slot Nat) :=
  List.replicate size (Slot.live 0)

/-- Refinement target written from the claim's words, for comparison with
`newArrayValueInit`: "size default-initialized elements".
Default-initialization of a scalar element performs no initialization, so
each slot stays raw. -/
def newArrayDefaultInitClaim (size : Nat) : List (Slot Nat) :=
  List.replicate size Slot.uninit

/-- `make_unique<T[]>(size)` (lines 387-392) for a scalar element type:
`unique_ptr<T>(new remove_extent_t<T>[size]())`.  The address `a` returned
by the allocation (always non-null) is a parameter; the result is the
allocated storage and the wrapping array owner with the default deleter. -/
def make_unique_array (a : Nat) (size : Nat) :
    List (Slot Nat) × ArrayUniquePtr :=
  (newArrayValueInit size, { ptr_ := a, del := 0 })

/-- C5 (counterexample): the array factory value-initializes, it does not
default-initialize: for a scalar element type, `make_unique<T[]>(1)`
produces a slot holding the zero value, not the raw default-initialized
slot the claim describes. -/
theorem make_unique_array_not_default_init :
    (make_unique_array 1 1).1 = [Slot.live 0] ∧
    (make_unique_array 1 1).1 ≠ newArrayDefaultInitClaim 1 := by
  constructor <;> simp [make_unique_array, newArrayValueInit, newArrayDefaultInitClaim]

/-- C5 (amended): for every size `n`, `make_unique<T[]>(n)` allocates
exactly `n` value-initialized elements of the array's element type (each
slot holds the zero value for a scalar element type) and wraps them in a
non-empty array owner holding the allocation's (non-null) address; the
overload is enabled exactly for array types of unspecified (runtime)
extent. -/
theorem make_unique_array_spec (a n : Nat) (ha : a ≠ 0) :
    (make_unique_array a n).1.length = n ∧
    (∀ s ∈ (make_unique_array a n).1, s = Slot.live 0) ∧
    (make_unique_array a n).2.ptr_ = a ∧
    (make_unique_array a n).2.ptr_ ≠ 0 ∧
    (∀ t : TypeForm, makeUniqueArrayEnabled t = true ↔ t = TypeForm.arrayUnspec) := by
  refine ⟨?_, ?_, rfl, ha, ?_⟩
  · simp [make_unique_array, newArrayValueInit]
  · intro s hs
    simpa [make_unique_array, newArrayValueInit] using
      List.eq_of_mem_replicate hs
  · intro t
    cases t <;> simp [makeUniqueArrayEnabled, is_array, extentVal]

/-- C5 (witness). -/
theorem make_unique_array_spec_witness :
    (1 : Nat) ≠ 0 ∧
    ((make_unique_array 1 3).1.length = 3 ∧
     (∀ s ∈ (make_unique_array 1 3).1, s = Slot.live 0) ∧
     (make_unique_array 1 3).2.ptr_ = 1 ∧
     (make_unique_array 1 3).2.ptr_ ≠ 0 ∧
     (∀ t : TypeForm, makeUniqueArrayEnabled t = true ↔ t = TypeForm.arrayUnspec)) :=
  ⟨by decide, make_unique_array_spec 1 3 (by decide)⟩

/-- The non-null address contributed by one owner: `[ptr_]` when the owner
is non-empty, `[]` when it holds the null marker. -/
def addrList (u : UniquePtr) : List Nat :=
  if u.ptr_ = 0 then [] else [u.ptr_]

/-- The non-null addresses held by a collection of live owners. -/
def liveAddrs (os : List UniquePtr) : List Nat :=
  (os.map UniquePtr.ptr_).filter (fun p => p != 0)

theorem liveAddrs_cons (u : UniquePtr) (os : List UniquePtr) :
    liveAddrs (u :: os) = addrList u ++ liveAddrs os := by
  by_cases h : u.ptr_ = 0 <;> simp [liveAddrs, addrList, h]

/-- A system of owners: the live owner instances together with the trace of
every deletion-capability invocation performed so far (the addresses passed
to deleters, in invocation order). -/
structure Sys where
  owners : List UniquePtr
  dels : List Nat

/-- A caller-supplied address is admissible for installation when it is the
null marker or is a genuinely new resource: not currently owned by any live
owner and never yet handed to a deleter.  This is the data model's aliasing
discipline: at most one live owner references a given address, and resets
and constructions install fresh (or released) addresses, not aliases. -/
def Sys.fresh (s : Sys) (p : Nat) : Prop :=
  p = 0 ∨ (p ∉ liveAddrs s.owners ∧ p ∉ s.dels)

/-- One owner operation on the system.  Each constructor's effect and
deletion trace come from the corresponding embedded `unique_ptr` member:
construction from an address, `release`, `reset`, move construction, move
assignment between distinct owners, self-move-assignment, and destruction.
`permute` reorders the bookkeeping list of live owners and performs no
operation. -/
inductive Step : Sys → Sys → Prop where
  | permute {os os' : List UniquePtr} {dels : List Nat} :
      os.Perm os' → Step ⟨os, dels⟩ ⟨os', dels⟩
  | construct {os : List UniquePtr} {dels : List Nat} (p d : Nat) :
      Sys.fresh ⟨os, dels⟩ p →
      Step ⟨os, dels⟩ ⟨{ ptr_ := p, del := d } :: os, dels⟩
  | releaseStep {os : List UniquePtr} {dels : List Nat} (u : UniquePtr) :
      Step ⟨u :: os, dels⟩ ⟨u.release.2.1 :: os, dels ++ u.release.2.2⟩
  | resetStep {os : List UniquePtr} {dels : List Nat} (u : UniquePtr) (p : Nat) :
      Sys.fresh ⟨u :: os, dels⟩ p →
      Step ⟨u :: os, dels⟩ ⟨(u.reset p).1 :: os, dels ++ (u.reset p).2⟩
  | moveCtorStep {os : List UniquePtr} {dels : List Nat} (u : UniquePtr) :
      Step ⟨u :: os, dels⟩
        ⟨u.moveCtor.1 :: u.moveCtor.2.1 :: os, dels ++ u.moveCtor.2.2⟩
  | moveAssignStep {os : List UniquePtr} {dels : List Nat} (dst src : UniquePtr) :
      Step ⟨dst :: src :: os, dels⟩
        ⟨(dst.moveAssign src).1 :: (dst.moveAssign src).2.1 :: os,
          dels ++ (dst.moveAssign src).2.2⟩
  | selfMoveStep {os : List UniquePtr} {dels : List Nat} (u : UniquePtr) :
      Step ⟨u :: os, dels⟩
        ⟨u.selfMoveAssign.1 :: os, dels ++ u.selfMoveAssign.2⟩
  | dtorStep {os : List UniquePtr} {dels : List Nat} (u : UniquePtr) :
      Step ⟨u :: os, dels⟩ ⟨os, dels ++ u.dtorDels⟩

/-- The at-most-once invariant: no address is both held twice, held and
already deleted, or deleted twice — the non-null live addresses together
with the deletion trace are duplicate-free. -/
def Inv (s : Sys) : Prop := (liveAddrs s.owners ++ s.dels).Nodup

/-- The empty system. -/
def initSys : Sys := ⟨[], []⟩

/-- Reachability by any finite sequence of owner operations from the empty
system. -/
def Reach (s : Sys) : Prop := Relation.ReflTransGen Step initSys s

theorem inv_initSys : Inv initSys := by
  simp [Inv, initSys, liveAddrs]

theorem inv_step {s t : Sys} (h : Step s t) (hinv : Inv s) : Inv t := by
  cases h with
  | @permute os os2 dels hp =>
      have hperm : List.Perm (liveAddrs os) (liveAddrs os2) :=
        hp.map UniquePtr.ptr_ |>.filter (fun p => p != 0)
      exact (hperm.append_right dels).nodup hinv
  | @construct os dels p d hfresh =>
      have hb : (liveAddrs os ++ dels).Nodup := hinv
      show (liveAddrs ({ ptr_ := p, del := d } :: os) ++ dels).Nodup
      rw [liveAddrs_cons]
      by_cases hp0 : p = 0
      · simpa [addrList, hp0] using hb
      · rcases hfresh with h0 | ⟨hnl, hnd⟩
        · exact absurd h0 hp0
        · simp only [addrList, if_neg hp0, List.append_assoc,
            List.cons_append, List.nil_append]
          refine List.nodup_cons.mpr ⟨?_, by simpa using hb⟩
          simp only [List.mem_append]
          rintro (hl | hd)
          · exact hnl hl
          · exact hnd hd
  | @releaseStep os dels u =>
      have hb : (addrList u ++ (liveAddrs os ++ dels)).Nodup := by
        simpa [Inv, liveAddrs_cons] using hinv
      have hsub : (liveAddrs os ++ dels).Nodup :=
        hb.sublist (List.sublist_append_right _ _)
      simpa [Inv, liveAddrs_cons, UniquePtr.release, addrList] using hsub
  | @resetStep os dels u p hfresh =>
      have hb : (addrList u ++ (liveAddrs os ++ dels)).Nodup := by
        simpa [Inv, liveAddrs_cons] using hinv
      have hLDB : ((liveAddrs os ++ dels) ++ addrList u).Nodup :=
        List.perm_append_comm.nodup hb
      show (liveAddrs ((u.reset p).1 :: os) ++ (dels ++ (u.reset p).2)).Nodup
      have hr1 : (u.reset p).1 = { u with ptr_ := p } := rfl
      have hr2 : (u.reset p).2 = addrList u := rfl
      rw [hr1, hr2, liveAddrs_cons]
      by_cases hp0 : p = 0
      · simpa [addrList, hp0] using hLDB
      · rcases hfresh with h0 | ⟨hnl, hnd⟩
        · exact absurd h0 hp0
        · have hnl2 : p ∉ addrList u ++ liveAddrs os := by
            simpa [liveAddrs_cons] using hnl
          simp only [List.mem_append] at hnl2
          push_neg at hnl2
          simp only [addrList, if_neg hp0, List.append_assoc,
            List.cons_append, List.nil_append]
          refine List.nodup_cons.mpr ⟨?_, by simpa using hLDB⟩
          simp only [List.mem_append]
          rintro (hl | hd | hbm)
          · exact hnl2.2 hl
          · exact hnd hd
          · exact hnl2.1 hbm
  | @moveCtorStep os dels u =>
      have hb : (addrList u ++ (liveAddrs os ++ dels)).Nodup := by
        simpa [Inv, liveAddrs_cons] using hinv
      have h1 : addrList u.moveCtor.1 = addrList u := by
        simp [UniquePtr.moveCtor, addrList]
      have h2 : addrList u.moveCtor.2.1 = [] := by
        simp [UniquePtr.moveCtor, addrList]
      show (liveAddrs (u.moveCtor.1 :: u.moveCtor.2.1 :: os) ++
        (dels ++ u.moveCtor.2.2)).Nodup
      rw [liveAddrs_cons, liveAddrs_cons, h1, h2]
      simpa [UniquePtr.moveCtor] using hb
  | @moveAssignStep os dels dst src =>
      have hb : (addrList dst ++ (addrList src ++ (liveAddrs os ++ dels))).Nodup := by
        simpa [Inv, liveAddrs_cons] using hinv
      have hrot : ((addrList src ++ (liveAddrs os ++ dels)) ++ addrList dst).Nodup :=
        List.perm_append_comm.nodup hb
      have h1 : addrList (dst.moveAssign src).1 = addrList src := by
        simp [UniquePtr.moveAssign, UniquePtr.release, UniquePtr.reset, addrList]
      have h2 : addrList (dst.moveAssign src).2.1 = [] := by
        simp [UniquePtr.moveAssign, UniquePtr.release, addrList]
      have h3 : (dst.moveAssign src).2.2 = addrList dst := rfl
      show (liveAddrs ((dst.moveAssign src).1 :: (dst.moveAssign src).2.1 :: os) ++
        (dels ++ (dst.moveAssign src).2.2)).Nodup
      rw [liveAddrs_cons, liveAddrs_cons, h1, h2, h3]
      simpa using hrot
  | @selfMoveStep os dels u =>
      have hb : (addrList u ++ (liveAddrs os ++ dels)).Nodup := by
        simpa [Inv, liveAddrs_cons] using hinv
      have h1 : addrList u.selfMoveAssign.1 = addrList u := by
        simp [UniquePtr.selfMoveAssign, UniquePtr.release, UniquePtr.reset, addrList]
      have h2 : u.selfMoveAssign.2 = [] := by
        simp [UniquePtr.selfMoveAssign, UniquePtr.release, UniquePtr.reset]
      show (liveAddrs (u.selfMoveAssign.1 :: os) ++ (dels ++ u.selfMoveAssign.2)).Nodup
      rw [liveAddrs_cons, h1, h2]
      simpa using hb
  | @dtorStep os dels u =>
      have hb : (addrList u ++ (liveAddrs os ++ dels)).Nodup := by
        simpa [Inv, liveAddrs_cons] using hinv
      have hrot : ((liveAddrs os ++ dels) ++ addrList u).Nodup :=
        List.perm_append_comm.nodup hb
      have h3 : u.dtorDels = addrList u := rfl
      show (liveAddrs os ++ (dels ++ u.dtorDels)).Nodup
      rw [h3]
      simpa using hrot

theorem reach_inv {s : Sys} (h : Reach s) : Inv s := by
  induction h with
  | refl => exact inv_initSys
  | tail _ hstep ih => exact inv_step hstep ih

/-- C4: transfer clears the source before any deletion can occur — every
ownership transfer (`release`, move construction, move assignment) leaves
the source owner holding the null marker, `release` and move construction
perform no deleter invocation at all, and the only deleter invocation a
move assignment performs is on the destination's previous non-null address
(never on the address being transferred out of the cleared source); as the
consequence, across any finite sequence of owner operations from the empty
system the deletion capability is invoked at most once per owned address —
the deletion trace of every reachable system state is duplicate-free. -/
theorem transfers_clear_source_before_deletion (s : Sys) (h : Reach s) :
    (∀ u : UniquePtr, u.release.2.1.ptr_ = 0 ∧ u.release.2.2 = []) ∧
    (∀ u : UniquePtr, u.moveCtor.2.1.ptr_ = 0 ∧ u.moveCtor.2.2 = []) ∧
    (∀ dst src : UniquePtr, (dst.moveAssign src).2.1.ptr_ = 0 ∧
      ∀ q ∈ (dst.moveAssign src).2.2, q = dst.ptr_ ∧ q ≠ 0) ∧
    s.dels.Nodup := by
  refine ⟨fun u => ⟨rfl, rfl⟩, fun u => ⟨rfl, rfl⟩, fun dst src => ⟨rfl, ?_⟩, ?_⟩
  · intro q hq
    simp only [UniquePtr.moveAssign, UniquePtr.release, UniquePtr.reset] at hq
    by_cases h0 : dst.ptr_ = 0
    · simp [h0] at hq
    · simp [h0] at hq
      exact ⟨hq, hq ▸ h0⟩
  · have := reach_inv h
    exact (List.nodup_append.mp this).2.1

/-- C4 (witness): the system that constructs an owner of address 5 and then
destroys it is reachable, and its deletion trace is duplicate-free. -/
theorem transfers_clear_source_before_deletion_witness :
    Reach { owners := [], dels := [5] } ∧ (List.Nodup [5]) := by
  have h1 : Step initSys ⟨[{ ptr_ := 5, del := 0 }], []⟩ := by
    have := @Step.construct [] [] 5 0
      (Or.inr ⟨by simp [liveAddrs], by simp⟩)
    simpa [initSys] using this
  have h2 : Step ⟨[{ ptr_ := 5, del := 0 }], ([] : List Nat)⟩ ⟨[], [5]⟩ := by
    have := @Step.dtorStep [] [] { ptr_ := 5, del := 0 }
    simpa [UniquePtr.dtorDels] using this
  have hreach : Reach ⟨[], [5]⟩ :=
    Relation.ReflTransGen.tail (Relation.ReflTransGen.single h1) h2
  exact ⟨hreach,
    (transfers_clear_source_before_deletion ⟨[], [5]⟩ hreach).2.2.2⟩

end Mstd
